import Mathlib

/-!
# Key derivation for the verkle state tree and the blob transaction helpers

Shallow embedding of

* `trie/utils` (key derivation exercised by `trie/utils/verkle_test.go`), whose
  implementation file is not part of the sources at hand and is modelled from
  the specification;
* `core/types/data_blob_tx.go`: `AddressOptionalSSZ`, `ReadHashes`,
  `fakeExponential`, `GetDataGasPrice` and `BlobTxMessage.copy`.
-/

namespace Verkle

/-! ## trie/utils: data model -/

/-- Modelled from the spec: the commitment/curve library consumed by the key
derivation (§6), which is an external dependency and a black box for this
subsystem: a fixed public generator basis (one generator per vector position,
five positions), and the canonical point-to-field serialization producing
32 bytes. The marker is the constant domain-separation element of the Field
Encoder (§4.1), whose value the spec does not give. -/
structure CommitmentLib (G : Type) where
  generators : List G
  mapToBytes : G → Fin 32 → UInt8
  marker : Nat

/-- Modelled from the spec: the threshold rule of §4.4 for one family of keys
(code chunks or storage slots). The cutoff, the header-reserved offset, the
derivation of the tree index and the fixed sub-index of a separate page are
consensus constants that the spec leaves open. -/
structure ThresholdRule where
  cutoff : Nat
  headerReserved : Nat
  deriveTreeIndex : Nat → Nat
  pageSubIndex : UInt8

/-- Modelled from the spec: the two threshold rules of the Key Derivation
Facade (§4.4), one for code chunks and one for storage slots. -/
structure Layout where
  code : ThresholdRule
  storage : ThresholdRule

/-- Big-endian value of a byte string. -/
def beNat (bs : List UInt8) : Nat :=
  bs.foldl (fun acc b => acc * 256 + b.toNat) 0

/-- Modelled from the spec: an address shorter than 32 bytes is zero-extended
on the left to the 32 bytes that the Field Encoder splits in two half-words
(§4.1, §8 "zero-padded"). -/
def alignAddress (address : List UInt8) : List UInt8 :=
  List.replicate (32 - address.length) 0 ++ address

/-- Modelled from the spec: Field Encoder (§4.1). One marker element, the
address as two 16-byte big-endian half-words, the 256-bit tree index split the
same way; always five elements. -/
def encode (marker : Nat) (address : List UInt8) (treeIndex : Nat) : List Nat :=
  let a := alignAddress address
  [marker, beNat (a.take 16), beNat ((a.drop 16).take 16),
    (treeIndex % 2 ^ 256) / 2 ^ 128, treeIndex % 2 ^ 128]

/-- Modelled from the spec: Commitment Evaluator (§4.2), the sum of
`scalar_i * generator_i` over the fixed basis. -/
def commit {G : Type} [AddCommMonoid G] (lib : CommitmentLib G) (poly : List Nat) : G :=
  (List.zipWith (fun s g => s • g) poly lib.generators).sum

/-- Modelled from the spec: Point Serializer (§4.3). The 32-byte canonical
serialization of the point with index 31 overwritten by the sub-index. -/
def pointToHash {G : Type} (lib : CommitmentLib G) (evaluated : G) (subIndex : UInt8) :
    List UInt8 :=
  List.ofFn (fun i : Fin 32 => if i.val = 31 then subIndex else lib.mapToBytes evaluated i)

/-- Modelled from the spec: the evaluated address point of an (address, tree
index) pair (§3), the commitment of the encoded vector. -/
def EvaluatedAddressPoint {G : Type} [AddCommMonoid G] (lib : CommitmentLib G)
    (address : List UInt8) (treeIndex : Nat) : G :=
  commit lib (encode lib.marker address treeIndex)

/-- Modelled from the spec: `evaluateAddressPoint` of `trie/utils`, called by
`TestTreeKey` with the address alone; the account header page has tree
index 0 (§4.4). -/
def evaluateAddressPoint {G : Type} [AddCommMonoid G] (lib : CommitmentLib G)
    (address : List UInt8) : G :=
  EvaluatedAddressPoint lib address 0

/-- Modelled from the spec: `GetTreeKey` of `trie/utils`, the direct path
Field Encoder → Commitment Evaluator → Point Serializer (§4.4). -/
def GetTreeKey {G : Type} [AddCommMonoid G] (lib : CommitmentLib G)
    (address : List UInt8) (treeIndex : Nat) (subIndex : UInt8) : List UInt8 :=
  pointToHash lib (commit lib (encode lib.marker address treeIndex)) subIndex

/-! ### Header fields (§4.4, field layout table) -/

/-- Sub-index of the version marker. -/
def VersionLeafKey : UInt8 := 0
/-- Sub-index of the balance. -/
def BalanceLeafKey : UInt8 := 1
/-- Sub-index of the nonce. -/
def NonceLeafKey : UInt8 := 2
/-- Sub-index of the code keccak hash. -/
def CodeKeccakLeafKey : UInt8 := 3
/-- Sub-index of the code size. -/
def CodeSizeLeafKey : UInt8 := 4

/-- Modelled from the spec: direct version key of `trie/utils` (§4.4). -/
def VersionKey {G : Type} [AddCommMonoid G] (lib : CommitmentLib G) (address : List UInt8) :
    List UInt8 :=
  GetTreeKey lib address 0 VersionLeafKey

/-- Modelled from the spec: direct balance key of `trie/utils` (§4.4). -/
def BalanceKey {G : Type} [AddCommMonoid G] (lib : CommitmentLib G) (address : List UInt8) :
    List UInt8 :=
  GetTreeKey lib address 0 BalanceLeafKey

/-- Modelled from the spec: direct nonce key of `trie/utils` (§4.4). -/
def NonceKey {G : Type} [AddCommMonoid G] (lib : CommitmentLib G) (address : List UInt8) :
    List UInt8 :=
  GetTreeKey lib address 0 NonceLeafKey

/-- Modelled from the spec: direct code-keccak key of `trie/utils` (§4.4). -/
def CodeKeccakKey {G : Type} [AddCommMonoid G] (lib : CommitmentLib G) (address : List UInt8) :
    List UInt8 :=
  GetTreeKey lib address 0 CodeKeccakLeafKey

/-- Modelled from the spec: direct code-size key of `trie/utils` (§4.4). -/
def CodeSizeKey {G : Type} [AddCommMonoid G] (lib : CommitmentLib G) (address : List UInt8) :
    List UInt8 :=
  GetTreeKey lib address 0 CodeSizeLeafKey

/-- Modelled from the spec: evaluated version key of `trie/utils`; it goes
straight to the Point Serializer with the supplied point (§4.4). -/
def VersionKeyWithEvaluatedAddress {G : Type} (lib : CommitmentLib G) (evaluated : G) :
    List UInt8 :=
  pointToHash lib evaluated VersionLeafKey

/-- Modelled from the spec: evaluated balance key of `trie/utils` (§4.4). -/
def BalanceKeyWithEvaluatedAddress {G : Type} (lib : CommitmentLib G) (evaluated : G) :
    List UInt8 :=
  pointToHash lib evaluated BalanceLeafKey

/-- Modelled from the spec: evaluated nonce key of `trie/utils` (§4.4). -/
def NonceKeyWithEvaluatedAddress {G : Type} (lib : CommitmentLib G) (evaluated : G) :
    List UInt8 :=
  pointToHash lib evaluated NonceLeafKey

/-- Modelled from the spec: evaluated code-keccak key of `trie/utils` (§4.4). -/
def CodeKeccakKeyWithEvaluatedAddress {G : Type} (lib : CommitmentLib G) (evaluated : G) :
    List UInt8 :=
  pointToHash lib evaluated CodeKeccakLeafKey

/-- Modelled from the spec: evaluated code-size key of `trie/utils` (§4.4). -/
def CodeSizeKeyWithEvaluatedAddress {G : Type} (lib : CommitmentLib G) (evaluated : G) :
    List UInt8 :=
  pointToHash lib evaluated CodeSizeLeafKey

/-! ### Code chunks and storage slots (§4.4, threshold rule) -/

/-- Modelled from the spec: tree index selected by the threshold rule (§4.4):
the header page below the cutoff, a derived tree index at or above it. -/
def thresholdTreeIndex (r : ThresholdRule) (index : Nat) : Nat :=
  if index < r.cutoff then 0 else r.deriveTreeIndex index

/-- Modelled from the spec: sub-index selected by the threshold rule (§4.4):
below the cutoff the index offset by the header-reserved count, at or above it
the fixed sub-index of the separate page. -/
def thresholdSubIndex (r : ThresholdRule) (index : Nat) : UInt8 :=
  if index < r.cutoff then UInt8.ofNat (r.headerReserved + index) else r.pageSubIndex

/-- Modelled from the spec: direct code-chunk key of `trie/utils` (§4.4). -/
def CodeChunkKey {G : Type} [AddCommMonoid G] (lib : CommitmentLib G) (lay : Layout)
    (address : List UInt8) (chunk : Nat) : List UInt8 :=
  GetTreeKey lib address (thresholdTreeIndex lay.code chunk) (thresholdSubIndex lay.code chunk)

/-- Modelled from the spec: evaluated code-chunk key of `trie/utils`; it
computes only the sub-index and serializes the supplied point (§4.4). -/
def CodeChunkKeyWithEvaluatedAddress {G : Type} (lib : CommitmentLib G) (lay : Layout)
    (evaluated : G) (chunk : Nat) : List UInt8 :=
  pointToHash lib evaluated (thresholdSubIndex lay.code chunk)

/-- Modelled from the spec: direct storage-slot key of `trie/utils` (§4.4);
the storage key is read as a big-endian integer. -/
def StorageSlotKey {G : Type} [AddCommMonoid G] (lib : CommitmentLib G) (lay : Layout)
    (address : List UInt8) (storageKey : List UInt8) : List UInt8 :=
  GetTreeKey lib address (thresholdTreeIndex lay.storage (beNat storageKey))
    (thresholdSubIndex lay.storage (beNat storageKey))

/-- Modelled from the spec: evaluated storage-slot key of `trie/utils`; it
computes only the sub-index and serializes the supplied point (§4.4). -/
def StorageSlotKeyWithEvaluatedAddress {G : Type} (lib : CommitmentLib G) (lay : Layout)
    (evaluated : G) (storageKey : List UInt8) : List UInt8 :=
  pointToHash lib evaluated (thresholdSubIndex lay.storage (beNat storageKey))

/-- A small commitment library over the integers, used to evaluate the model on
concrete inputs: generators 1, 3, 9, 27, 81, and the little-endian bytes of the
point as its serialization. -/
def sampleLib : CommitmentLib Int where
  generators := [1, 3, 9, 27, 81]
  mapToBytes := fun p i => UInt8.ofNat ((p.toNat / 256 ^ i.val) % 256)
  marker := 16386

/-- A sample layout used to evaluate the model on concrete inputs: cutoffs 128
and 64, separate pages one per 256 indices. -/
def sampleLayout : Layout where
  code := ⟨128, 128, fun c => (c + 128) / 256, 0⟩
  storage := ⟨64, 64, fun k => k / 256 + 1, 0⟩

end Verkle

namespace Types

/-! ## core/types/data_blob_tx.go: SSZ helpers -/

/-- Errors returned by the deserializers: the nil-receiver error of
`AddressSSZ.Deserialize` and `AddressOptionalSSZ.Deserialize`, an error of the
decoding reader, and the invalid union selector. -/
inductive Error where
  | nilReceiver
  | read
  | invalidSelector (v : UInt8)
  deriving DecidableEq, Repr

/-- The `codec.DecodingReader` of the SSZ library, modelled as the bytes that
remain in its scope. -/
structure DecodingReader where
  input : List UInt8
  deriving DecidableEq, Repr

/-- Reader method `ReadByte`: the next byte, or an error when nothing is left. -/
def DecodingReader.ReadByte (dr : DecodingReader) : Except Error (UInt8 × DecodingReader) :=
  match dr.input with
  | [] => Except.error Error.read
  | b :: rest => Except.ok (b, ⟨rest⟩)

/-- Reader method `Read` into a buffer of `n` bytes: the next `n` bytes, or an
error (nothing consumed, buffer untouched) when fewer remain in scope. -/
def DecodingReader.Read (dr : DecodingReader) (n : Nat) :
    Except Error (List UInt8 × DecodingReader) :=
  if n ≤ dr.input.length then Except.ok (dr.input.take n, ⟨dr.input.drop n⟩)
  else Except.error Error.read

/-- The `codec.EncodingWriter` of the SSZ library over an in-memory buffer,
modelled as the bytes written so far. -/
structure EncodingWriter where
  output : List UInt8
  deriving DecidableEq, Repr

/-- Writer method `WriteByte`. -/
def EncodingWriter.WriteByte (w : EncodingWriter) (b : UInt8) : EncodingWriter × Option Error :=
  (⟨w.output ++ [b]⟩, none)

/-- Writer method `Write`. -/
def EncodingWriter.Write (w : EncodingWriter) (bs : List UInt8) :
    EncodingWriter × Option Error :=
  (⟨w.output ++ bs⟩, none)

/-- A fixed-size byte array filled from the bytes read. -/
def bytesToArray (n : Nat) (bs : List UInt8) : Fin n → UInt8 :=
  fun i => bs.getD i.val 0

/-- Go type `AddressSSZ`, a `common.Address`: an array of 20 bytes. -/
abbrev AddressSSZ := Fin 20 → UInt8

/-- Go type `common.Hash`: an array of 32 bytes. -/
abbrev Hash := Fin 32 → UInt8

/-- State left by a deserializer: the receiver after the call, the reader after
the call, and the error returned (`none` is Go's nil error). -/
structure Outcome (α : Type) where
  receiver : α
  reader : DecodingReader
  err : Option Error

/-- Method `(*AddressSSZ).Deserialize`; the receiver is a pointer, `none` being
the nil pointer. -/
def AddressSSZ.Deserialize (addr : Option AddressSSZ) (dr : DecodingReader) :
    Outcome (Option AddressSSZ) :=
  match addr with
  | none => ⟨none, dr, some Error.nilReceiver⟩
  | some a =>
    match dr.Read 20 with
    | Except.error e => ⟨some a, dr, some e⟩
    | Except.ok (bs, dr1) => ⟨some (bytesToArray 20 bs), dr1, none⟩

/-- Method `(*AddressSSZ).Serialize`. -/
def AddressSSZ.Serialize (addr : AddressSSZ) (w : EncodingWriter) :
    EncodingWriter × Option Error :=
  w.Write (List.ofFn addr)

/-- Go type `AddressOptionalSSZ`, implementing `Union[None, Address]`; the field
is a pointer, `none` being nil. -/
structure AddressOptionalSSZ where
  Address : Option AddressSSZ

/-- Method `(*AddressOptionalSSZ).Deserialize`; the receiver is a pointer,
`none` being the nil pointer. -/
def AddressOptionalSSZ.Deserialize (ao : Option AddressOptionalSSZ) (dr : DecodingReader) :
    Outcome (Option AddressOptionalSSZ) :=
  match ao with
  | none => ⟨none, dr, some Error.nilReceiver⟩
  | some s =>
    match dr.ReadByte with
    | Except.error e => ⟨some s, dr, some e⟩
    | Except.ok (v, dr1) =>
      if v = 0 then ⟨some ⟨none⟩, dr1, none⟩
      else if v = 1 then
        let r := AddressSSZ.Deserialize (some (fun _ => 0)) dr1
        ⟨some ⟨r.receiver⟩, r.reader, r.err⟩
      else ⟨some s, dr1, some (Error.invalidSelector v)⟩

/-- Method `(*AddressOptionalSSZ).Serialize`. -/
def AddressOptionalSSZ.Serialize (ao : AddressOptionalSSZ) (w : EncodingWriter) :
    EncodingWriter × Option Error :=
  match ao.Address with
  | none => w.WriteByte 0
  | some a =>
    match w.WriteByte 1 with
    | (w1, some e) => (w1, some e)
    | (w1, none) => AddressSSZ.Serialize a w1

/-- Method `(*AddressOptionalSSZ).ByteLength`. -/
def AddressOptionalSSZ.ByteLength (ao : AddressOptionalSSZ) : Nat :=
  match ao.Address with
  | none => 1
  | some _ => 1 + 20

/-! ### Hash lists -/

/-- A Go slice of hashes: nil, or a view of length `len` on a backing array
whose length is the capacity. -/
inductive HashSlice where
  | nil
  | arr (backing : List Hash) (len : Nat)

/-- Go `len`. -/
def HashSlice.len : HashSlice → Nat
  | HashSlice.nil => 0
  | HashSlice.arr _ n => n

/-- Go `cap`. -/
def HashSlice.cap : HashSlice → Nat
  | HashSlice.nil => 0
  | HashSlice.arr backing _ => backing.length

/-- Go comparison `s == nil`. -/
def HashSlice.isNil : HashSlice → Bool
  | HashSlice.nil => true
  | HashSlice.arr _ _ => false

/-- Go reslice `s[:n]` for `n` within the capacity; a nil slice stays nil. -/
def HashSlice.reslice : HashSlice → Nat → HashSlice
  | HashSlice.nil, _ => HashSlice.nil
  | HashSlice.arr backing _, n => HashSlice.arr backing n

/-- Go `make([]common.Hash, n)`: a fresh zeroed backing array. -/
def HashSlice.make (n : Nat) : HashSlice :=
  HashSlice.arr (List.replicate n (fun _ => 0)) n

/-- Go literal `[]common.Hash{}`: empty and not nil. -/
def HashSlice.empty : HashSlice :=
  HashSlice.arr [] 0

/-- Store into `s[i]`. -/
def HashSlice.set : HashSlice → Nat → Hash → HashSlice
  | HashSlice.nil, _, _ => HashSlice.nil
  | HashSlice.arr backing n, i, h => HashSlice.arr (backing.set i h) n

/-- The elements of the slice. -/
def HashSlice.toList : HashSlice → List Hash
  | HashSlice.nil => []
  | HashSlice.arr backing n => backing.take n

/-- The loop of `ReadHashes` with `n` iterations left, at index `i`: each
iteration reads 32 bytes into `dst[i]` and returns at the first read error. -/
def readHashesLoop : Nat → Nat → DecodingReader → HashSlice → Outcome HashSlice
  | 0, _, dr, dst => ⟨dst, dr, none⟩
  | n + 1, i, dr, dst =>
    match dr.Read 32 with
    | Except.error e => ⟨dst, dr, some e⟩
    | Except.ok (bs, dr1) => readHashesLoop n (i + 1) dr1 (dst.set i (bytesToArray 32 bs))

/-- Function `ReadHashes`: reads `length` hashes from `dr` through `hashes`,
reusing the capacity when it suffices. The receiver of the outcome is `*hashes`
on return. -/
def ReadHashes (dr : DecodingReader) (hashes : HashSlice) (length : Nat) : Outcome HashSlice :=
  let hashes1 :=
    if hashes.len ≠ length then
      if hashes.cap ≥ length then hashes.reslice length else HashSlice.make length
    else if hashes.isNil then HashSlice.empty
    else hashes
  readHashesLoop length 0 dr hashes1

/-! ### Data gas price -/

/-- The loop of `fakeExponential` on the state `(i, output, numAccum)`, run for
at most `fuel` iterations (`none` when the fuel runs out, or when `Div` is
called with a zero divisor, which panics). `Div` of `math/big` is Euclidean
division, as is `/` on `Int`. The counter `i` is a Go `int`; it is kept
unbounded, since it could only wrap after 2^63 iterations. -/
def fakeExponentialLoop (num denom : Int) : Nat → Int → Int → Int → Option Int
  | 0, _, _, _ => none
  | fuel + 1, i, output, numAccum =>
    if 0 < numAccum then
      if i * denom = 0 then none
      else fakeExponentialLoop num denom fuel (i + 1) (output + numAccum)
        (numAccum * num / (i * denom))
    else some output

/-- Function `fakeExponential`, run with the given fuel for its loop. -/
def fakeExponential (fuel : Nat) (factor num denom : Int) : Option Int :=
  match fakeExponentialLoop num denom fuel 1 0 (factor * denom) with
  | none => none
  | some output => if denom = 0 then none else some (output / denom)

/-- Function `GetDataGasPrice`; the argument and the result are `*big.Int`
pointers, `none` being nil. The constants `params.MinDataGasPrice` and
`params.DataGasPriceUpdateFraction` are parameters. The outer option is `none`
when the loop of `fakeExponential` has not finished within the fuel. -/
def GetDataGasPrice (MinDataGasPrice DataGasPriceUpdateFraction : Int) (fuel : Nat)
    (excessDataGas : Option Int) : Option (Option Int) :=
  match excessDataGas with
  | none => some none
  | some x => (fakeExponential fuel MinDataGasPrice x DataGasPriceUpdateFraction).map some

/-- The terms of EIP-4844 `fake_exponential`: `t_0 = factor * denom` and
`t_i = floor(t_(i-1) * num / (i * denom))`. -/
def eipTerm (factor num denom : Int) : Nat → Int
  | 0 => factor * denom
  | i + 1 => ⌊((eipTerm factor num denom i * num : Int) : ℚ) / (((i + 1 : Nat) : Int) * denom : Int)⌋

/-- The sum of the first `k` terms of EIP-4844 `fake_exponential`. -/
def eipSum (factor num denom : Int) (k : Nat) : Int :=
  ((List.range k).map (eipTerm factor num denom)).sum

/-! ### Blob transaction message and its copy -/

/-- A Go slice header: the backing array it points to (`none` for a nil slice)
and its length. A slice is taken to start at the beginning of its backing
array. -/
structure SliceRef where
  ptr : Option Nat
  len : Nat
  deriving DecidableEq, Repr

/-- Go type `AccessTuple`, the element type of `AccessList`. Its fields are
those that `AccessTupleView` converts to `*AddressSSZ` and `*StorageKeysView`:
the address is an array value, the storage keys are a slice of hashes. -/
structure AccessTuple where
  Address : AddressSSZ
  StorageKeys : SliceRef

/-- The memory that messages point into: the cells of `*AddressSSZ` pointers
and the backing arrays of `[]byte`, `[]AccessTuple` and `[]common.Hash` slices.
A pointer is an index; an allocation appends. -/
structure Heap where
  addrs : List AddressSSZ
  bytes : List (List UInt8)
  tuples : List (List AccessTuple)
  hashes : List (List Hash)

/-- Go type `BlobTxMessage`. The integer views are values; `To` is the
`Address` pointer of its `AddressOptionalSSZ` (`none` is nil, contract
creation); `Data`, `AccessList` and `BlobVersionedHashes` are slices. -/
structure BlobTxMessage where
  ChainID : Nat
  Nonce : Nat
  GasTipCap : Nat
  GasFeeCap : Nat
  Gas : Nat
  To : Option Nat
  Value : Nat
  Data : SliceRef
  AccessList : SliceRef
  MaxFeePerDataGas : Nat
  BlobVersionedHashes : SliceRef

/-- The address a pointer refers to. -/
def Heap.readAddr (h : Heap) (p : Option Nat) : Option AddressSSZ :=
  p.map (fun q => h.addrs.getD q (fun _ => 0))

/-- The bytes of a byte slice. -/
def Heap.readBytes (h : Heap) (s : SliceRef) : List UInt8 :=
  match s.ptr with
  | none => []
  | some p => (h.bytes.getD p []).take s.len

/-- The elements of a slice of access tuples. -/
def Heap.readTuples (h : Heap) (s : SliceRef) : List AccessTuple :=
  match s.ptr with
  | none => []
  | some p => (h.tuples.getD p []).take s.len

/-- The elements of a slice of hashes. -/
def Heap.readHashes (h : Heap) (s : SliceRef) : List Hash :=
  match s.ptr with
  | none => []
  | some p => (h.hashes.getD p []).take s.len

/-- Modelled from the spec: helper `copyAddressPtr` of `core/types` is not
among the sources, and the spec only names the optional address it serves
(§9); it is modelled from its name and its use in `copy`: nil for nil,
otherwise a pointer to a fresh cell holding the same address. -/
def copyAddressPtr (h : Heap) (a : Option Nat) : Heap × Option Nat :=
  match a with
  | none => (h, none)
  | some p => ({ h with addrs := h.addrs ++ [h.addrs.getD p (fun _ => 0)] }, some h.addrs.length)

/-- Modelled from the spec: helper `common.CopyBytes` is not among the
sources and the spec does not describe it; it is modelled from its name and
its use in `copy`: nil for nil, otherwise a slice of the same length on a
fresh backing array holding the same bytes. -/
def CopyBytes (h : Heap) (b : SliceRef) : Heap × SliceRef :=
  match b.ptr with
  | none => (h, ⟨none, 0⟩)
  | some _ => ({ h with bytes := h.bytes ++ [h.readBytes b] }, ⟨some h.bytes.length, b.len⟩)

/-- Go `make([]AccessTuple, n)`: a fresh array of `n` zero tuples. -/
def makeTuples (h : Heap) (n : Nat) : Heap × SliceRef :=
  ({ h with tuples := h.tuples ++ [List.replicate n ⟨fun _ => 0, ⟨none, 0⟩⟩] },
    ⟨some h.tuples.length, n⟩)

/-- Go `make([]common.Hash, n)`: a fresh array of `n` zero hashes. -/
def makeHashes (h : Heap) (n : Nat) : Heap × SliceRef :=
  ({ h with hashes := h.hashes ++ [List.replicate n (fun _ => 0)] }, ⟨some h.hashes.length, n⟩)

/-- Go builtin `copy(dst, src)` on slices of access tuples: the first
`min(len(dst), len(src))` elements of `src` are stored into the backing array
of `dst`. The elements are tuple values, so their `StorageKeys` slice headers
are copied as they are. -/
def copyTuples (h : Heap) (dst src : SliceRef) : Heap :=
  match dst.ptr with
  | none => h
  | some p =>
    let n := min dst.len src.len
    let arr := (h.readTuples src).take n ++ (h.tuples.getD p []).drop n
    { h with tuples := h.tuples.set p arr }

/-- Go builtin `copy(dst, src)` on slices of hashes. -/
def copyHashes (h : Heap) (dst src : SliceRef) : Heap :=
  match dst.ptr with
  | none => h
  | some p =>
    let n := min dst.len src.len
    let arr := (h.readHashes src).take n ++ (h.hashes.getD p []).drop n
    { h with hashes := h.hashes.set p arr }

/-- Method `(*BlobTxMessage).copy`: the memory after the call and the message
that the returned pointer refers to. -/
def BlobTxMessage.copy (h : Heap) (tx : BlobTxMessage) : Heap × BlobTxMessage :=
  let r1 := copyAddressPtr h tx.To
  let r2 := CopyBytes r1.1 tx.Data
  let r3 := makeTuples r2.1 tx.AccessList.len
  let r4 := makeHashes r3.1 tx.BlobVersionedHashes.len
  let cpy : BlobTxMessage :=
    { ChainID := tx.ChainID
      Nonce := tx.Nonce
      GasTipCap := tx.GasTipCap
      GasFeeCap := tx.GasFeeCap
      Gas := tx.Gas
      To := r1.2
      Value := tx.Value
      Data := r2.2
      AccessList := r3.2
      MaxFeePerDataGas := tx.MaxFeePerDataGas
      BlobVersionedHashes := r4.2 }
  let h5 := copyTuples r4.1 cpy.AccessList tx.AccessList
  let h6 := copyHashes h5 cpy.BlobVersionedHashes tx.BlobVersionedHashes
  (h6, cpy)

/-- Go assignment `s[i] = v` on a slice of hashes, for `i` within the length
(the memory is left as it is otherwise, where Go panics). -/
def Heap.setHash (h : Heap) (s : SliceRef) (i : Nat) (v : Hash) : Heap :=
  match s.ptr with
  | none => h
  | some p =>
    if i < s.len then { h with hashes := h.hashes.set p ((h.hashes.getD p []).set i v) }
    else h

/-- Go statement `tx.AccessList[i].StorageKeys[j] = v`. -/
def BlobTxMessage.setStorageKey (h : Heap) (tx : BlobTxMessage) (i j : Nat) (v : Hash) : Heap :=
  match (h.readTuples tx.AccessList)[i]? with
  | none => h
  | some t => h.setHash t.StorageKeys j v

/-- The content of an access tuple: its address and its storage keys. -/
structure AccessTupleValue where
  Address : AddressSSZ
  StorageKeys : List Hash

/-- The content of a message: every field with the pointers and slices
followed into the memory. -/
structure BlobTxValue where
  ChainID : Nat
  Nonce : Nat
  GasTipCap : Nat
  GasFeeCap : Nat
  Gas : Nat
  To : Option AddressSSZ
  Value : Nat
  Data : List UInt8
  AccessList : List AccessTupleValue
  MaxFeePerDataGas : Nat
  BlobVersionedHashes : List Hash

/-- The content of a message in a memory. -/
def BlobTxMessage.value (h : Heap) (tx : BlobTxMessage) : BlobTxValue :=
  { ChainID := tx.ChainID
    Nonce := tx.Nonce
    GasTipCap := tx.GasTipCap
    GasFeeCap := tx.GasFeeCap
    Gas := tx.Gas
    To := h.readAddr tx.To
    Value := tx.Value
    Data := h.readBytes tx.Data
    AccessList := (h.readTuples tx.AccessList).map
      (fun t => ⟨t.Address, h.readHashes t.StorageKeys⟩)
    MaxFeePerDataGas := tx.MaxFeePerDataGas
    BlobVersionedHashes := h.readHashes tx.BlobVersionedHashes }

/-- A pointer is valid in an area of `n` cells when it is nil or below `n`. -/
def validPtr (n : Nat) (p : Option Nat) : Bool :=
  match p with
  | none => true
  | some q => decide (q < n)

/-- A message is well formed in a memory when all its pointers, and those of
its access tuples, refer to allocated cells. -/
def BlobTxMessage.wellFormed (h : Heap) (tx : BlobTxMessage) : Bool :=
  validPtr h.addrs.length tx.To && validPtr h.bytes.length tx.Data.ptr &&
    validPtr h.tuples.length tx.AccessList.ptr &&
    validPtr h.hashes.length tx.BlobVersionedHashes.ptr &&
    (h.readTuples tx.AccessList).all (fun t => validPtr h.hashes.length t.StorageKeys.ptr)

/-- A sample memory: one storage-key array holding the zero hash, and one
tuple array holding a tuple whose storage keys are that array. -/
def sampleHeap : Heap where
  addrs := []
  bytes := []
  tuples := [[⟨fun _ => 0, ⟨some 0, 1⟩⟩]]
  hashes := [[fun _ => 0]]

/-- A sample message in the sample memory: a contract creation with empty
data, one access tuple with one storage key, and no versioned hashes. -/
def sampleTx : BlobTxMessage where
  ChainID := 1
  Nonce := 0
  GasTipCap := 0
  GasFeeCap := 0
  Gas := 21000
  To := none
  Value := 0
  Data := ⟨none, 0⟩
  AccessList := ⟨some 0, 1⟩
  MaxFeePerDataGas := 0
  BlobVersionedHashes := ⟨none, 0⟩

end Types

namespace Verkle

/-! ## trie/utils: properties -/

theorem pointToHash_length {G : Type} (lib : CommitmentLib G) (p : G) (s : UInt8) :
    (pointToHash lib p s).length = 32 := by
  unfold pointToHash
  exact List.length_ofFn _

theorem pointToHash_getElem? {G : Type} (lib : CommitmentLib G) (p : G) (s : UInt8)
    (i : Nat) (hi : i < 32) :
    (pointToHash lib p s)[i]? = some (if i = 31 then s else lib.mapToBytes p ⟨i, hi⟩) := by
  unfold pointToHash
  rw [List.getElem?_ofFn]
  simp only [List.ofFnNthVal, dif_pos hi]

theorem pointToHash_last {G : Type} (lib : CommitmentLib G) (p : G) (s : UInt8) :
    (pointToHash lib p s)[31]? = some s := by
  simp [pointToHash_getElem? lib p s 31 (by decide)]

theorem pointToHash_take {G : Type} (lib : CommitmentLib G) (p : G) (s t : UInt8) :
    (pointToHash lib p s).take 31 = (pointToHash lib p t).take 31 := by
  apply List.ext_getElem?
  intro i
  by_cases hi : i < 31
  · have h32 : i < 32 := by omega
    have hne : i ≠ 31 := by omega
    simp [List.getElem?_take, hi, pointToHash_getElem? lib p _ i h32, hne]
  · simp [List.getElem?_take, hi]

theorem pointToHash_eq_iff {G : Type} (lib : CommitmentLib G) (p : G) (s t : UInt8) :
    pointToHash lib p s = pointToHash lib p t ↔ s = t := by
  constructor
  · intro h
    have hs := pointToHash_last lib p s
    rw [h, pointToHash_last] at hs
    exact (Option.some.inj hs).symm
  · intro h
    rw [h]

/-- C1: each direct account-header key function equals its evaluated-address
counterpart applied to the point evaluated from that address: version, balance,
nonce, code keccak and code size. -/
theorem header_keys_eq_evaluated {G : Type} [AddCommMonoid G] (lib : CommitmentLib G)
    (a : List UInt8) :
    VersionKey lib a = VersionKeyWithEvaluatedAddress lib (evaluateAddressPoint lib a) ∧
    BalanceKey lib a = BalanceKeyWithEvaluatedAddress lib (evaluateAddressPoint lib a) ∧
    NonceKey lib a = NonceKeyWithEvaluatedAddress lib (evaluateAddressPoint lib a) ∧
    CodeKeccakKey lib a = CodeKeccakKeyWithEvaluatedAddress lib (evaluateAddressPoint lib a) ∧
    CodeSizeKey lib a = CodeSizeKeyWithEvaluatedAddress lib (evaluateAddressPoint lib a) :=
  ⟨rfl, rfl, rfl, rfl, rfl⟩

/-- C3: for a fixed address and tree index, the keys of two sub-indices are
both 32 bytes long, agree on bytes 0..30, carry their sub-index in byte 31, and
are equal exactly when the sub-indices are. -/
theorem GetTreeKey_subindex_isolation {G : Type} [AddCommMonoid G] (lib : CommitmentLib G)
    (A : List UInt8) (T : Nat) (s1 s2 : UInt8) :
    (GetTreeKey lib A T s1).length = 32 ∧ (GetTreeKey lib A T s2).length = 32 ∧
    (GetTreeKey lib A T s1).take 31 = (GetTreeKey lib A T s2).take 31 ∧
    (GetTreeKey lib A T s1)[31]? = some s1 ∧ (GetTreeKey lib A T s2)[31]? = some s2 ∧
    (GetTreeKey lib A T s1 = GetTreeKey lib A T s2 ↔ s1 = s2) :=
  ⟨pointToHash_length _ _ _, pointToHash_length _ _ _, pointToHash_take _ _ _ _,
    pointToHash_last _ _ _, pointToHash_last _ _ _, pointToHash_eq_iff _ _ _ _⟩

/-- C4: the five account-header keys of an address are keys of tree index 0,
share their first 31 bytes, and end in the bytes 0, 1, 2, 3 and 4 for version,
balance, nonce, code keccak and code size. -/
theorem header_keys_layout {G : Type} [AddCommMonoid G] (lib : CommitmentLib G)
    (a : List UInt8) :
    (VersionKey lib a = GetTreeKey lib a 0 0 ∧ BalanceKey lib a = GetTreeKey lib a 0 1 ∧
      NonceKey lib a = GetTreeKey lib a 0 2 ∧ CodeKeccakKey lib a = GetTreeKey lib a 0 3 ∧
      CodeSizeKey lib a = GetTreeKey lib a 0 4) ∧
    ((BalanceKey lib a).take 31 = (VersionKey lib a).take 31 ∧
      (NonceKey lib a).take 31 = (VersionKey lib a).take 31 ∧
      (CodeKeccakKey lib a).take 31 = (VersionKey lib a).take 31 ∧
      (CodeSizeKey lib a).take 31 = (VersionKey lib a).take 31) ∧
    ((VersionKey lib a)[31]? = some 0 ∧ (BalanceKey lib a)[31]? = some 1 ∧
      (NonceKey lib a)[31]? = some 2 ∧ (CodeKeccakKey lib a)[31]? = some 3 ∧
      (CodeSizeKey lib a)[31]? = some 4) :=
  ⟨⟨rfl, rfl, rfl, rfl, rfl⟩,
    ⟨pointToHash_take _ _ _ _, pointToHash_take _ _ _ _, pointToHash_take _ _ _ _,
      pointToHash_take _ _ _ _⟩,
    ⟨pointToHash_last _ _ _, pointToHash_last _ _ _, pointToHash_last _ _ _,
      pointToHash_last _ _ _, pointToHash_last _ _ _⟩⟩

/-! ### Threshold rule: what the evaluated operations of §4.4 give -/

/-- The direct code-chunk and storage-slot keys are the evaluated ones at the
point evaluated under the tree index that the threshold rule selects. -/
theorem threshold_keys_eq_evaluated_matching {G : Type} [AddCommMonoid G]
    (lib : CommitmentLib G) (lay : Layout) (a : List UInt8) (c : Nat) (k : List UInt8) :
    CodeChunkKey lib lay a c = CodeChunkKeyWithEvaluatedAddress lib lay
      (EvaluatedAddressPoint lib a (thresholdTreeIndex lay.code c)) c ∧
    StorageSlotKey lib lay a k = StorageSlotKeyWithEvaluatedAddress lib lay
      (EvaluatedAddressPoint lib a (thresholdTreeIndex lay.storage (beNat k))) k :=
  ⟨rfl, rfl⟩

/-- Below the cutoff the point evaluated from the address alone gives the
direct code-chunk and storage-slot keys. -/
theorem threshold_keys_eq_evaluated_below {G : Type} [AddCommMonoid G]
    (lib : CommitmentLib G) (lay : Layout) (a : List UInt8) (c : Nat) (k : List UInt8)
    (hc : c < lay.code.cutoff) (hk : beNat k < lay.storage.cutoff) :
    CodeChunkKey lib lay a c =
      CodeChunkKeyWithEvaluatedAddress lib lay (evaluateAddressPoint lib a) c ∧
    StorageSlotKey lib lay a k =
      StorageSlotKeyWithEvaluatedAddress lib lay (evaluateAddressPoint lib a) k := by
  unfold CodeChunkKey StorageSlotKey CodeChunkKeyWithEvaluatedAddress
    StorageSlotKeyWithEvaluatedAddress evaluateAddressPoint EvaluatedAddressPoint GetTreeKey
    thresholdTreeIndex
  rw [if_pos hc, if_pos hk]
  exact ⟨rfl, rfl⟩

/-- At or above the cutoff the two code-chunk keys are equal exactly when the
serializations of the commitments under the derived tree index and under tree
index 0 agree on their first 31 bytes. -/
theorem CodeChunkKey_eq_evaluated_iff {G : Type} [AddCommMonoid G]
    (lib : CommitmentLib G) (lay : Layout) (a : List UInt8) (c : Nat)
    (hc : lay.code.cutoff ≤ c) :
    CodeChunkKey lib lay a c =
        CodeChunkKeyWithEvaluatedAddress lib lay (evaluateAddressPoint lib a) c ↔
      ∀ i : Fin 32, i.val ≠ 31 →
        lib.mapToBytes (EvaluatedAddressPoint lib a (lay.code.deriveTreeIndex c)) i =
          lib.mapToBytes (EvaluatedAddressPoint lib a 0) i := by
  have hnot : ¬ (c < lay.code.cutoff) := Nat.not_lt.mpr hc
  unfold CodeChunkKey CodeChunkKeyWithEvaluatedAddress evaluateAddressPoint GetTreeKey
    thresholdTreeIndex
  rw [if_neg hnot]
  unfold pointToHash EvaluatedAddressPoint
  rw [List.ofFn_inj]
  constructor
  · intro h i hi
    have hi2 := congrFun h i
    simpa [hi] using hi2
  · intro h
    funext i
    by_cases hi : i.val = 31
    · simp [hi]
    · simp [hi, h i hi]

/-- With the sample library and layout, the evaluated code-chunk key at chunk
10000 computed from the point of the address alone is not the direct key: the
equality of the two is a property of the library, not of the derivation. -/
theorem sample_codeChunk_keys_differ :
    CodeChunkKey sampleLib sampleLayout [1] 10000 ≠
      CodeChunkKeyWithEvaluatedAddress sampleLib sampleLayout
        (evaluateAddressPoint sampleLib [1]) 10000 := by
  decide

end Verkle

namespace Types

/-! ## core/types/data_blob_tx.go: properties -/

theorem bytesToArray_ofFn (n : Nat) (a : Fin n → UInt8) : bytesToArray n (List.ofFn a) = a := by
  funext i
  have hi : i.val < (List.ofFn a).length := by
    rw [List.length_ofFn]
    exact i.isLt
  unfold bytesToArray
  rw [List.getD_eq_getElem _ _ hi, List.getElem_ofFn]

theorem Read_ofFn_append (n : Nat) (a : Fin n → UInt8) (rest : List UInt8) :
    DecodingReader.Read ⟨List.ofFn a ++ rest⟩ n = Except.ok (List.ofFn a, ⟨rest⟩) := by
  have hlen : (List.ofFn a).length = n := List.length_ofFn a
  have hle : n ≤ (List.ofFn a ++ rest).length := by
    rw [List.length_append, hlen]
    exact Nat.le_add_right n _
  unfold DecodingReader.Read
  rw [if_pos hle]
  have htake : (List.ofFn a ++ rest).take n = List.ofFn a := by
    rw [List.take_append_of_le_length (le_of_eq hlen.symm), List.take_of_length_le (le_of_eq hlen)]
  have hdrop : (List.ofFn a ++ rest).drop n = rest := by
    have h := List.drop_left (List.ofFn a) rest
    rw [hlen] at h
    exact h
  rw [htake, hdrop]

/-- The bytes of the SSZ union encoding of an optional address: the selector 0
alone, or the selector 1 followed by the 20 address bytes. -/
theorem Serialize_output (ao : AddressOptionalSSZ) (w : EncodingWriter) :
    ao.Serialize w =
      (⟨w.output ++ (match ao.Address with
        | none => [0]
        | some a => 1 :: List.ofFn a)⟩, none) := by
  obtain ⟨addr⟩ := ao
  cases addr with
  | none => rfl
  | some a =>
    simp [AddressOptionalSSZ.Serialize, AddressSSZ.Serialize, EncodingWriter.WriteByte,
      EncodingWriter.Write]

theorem readHashesLoop_isNil (n i : Nat) (dr : DecodingReader) (dst : HashSlice)
    (h : dst.isNil = false) : (readHashesLoop n i dr dst).receiver.isNil = false := by
  induction n generalizing i dr dst with
  | zero => simpa [readHashesLoop] using h
  | succ n ih =>
    unfold readHashesLoop
    cases hr : dr.Read 32 with
    | error e => simpa using h
    | ok p =>
      obtain ⟨bs, dr1⟩ := p
      apply ih
      cases dst with
      | nil => simp [HashSlice.isNil] at h
      | arr backing len => rfl

/-- C8: `AddressOptionalSSZ` round trip. For every value (absent, or present
with any 20-byte address) `Serialize` writes the selector byte 0 alone, or the
selector byte 1 followed by the 20 address bytes, and `Deserialize` on those
bytes (whatever follows them, and whatever the receiver held) succeeds, yields
the original value and consumes exactly those bytes. -/
theorem AddressOptionalSSZ_roundtrip (ao recv : AddressOptionalSSZ) (w : EncodingWriter)
    (rest : List UInt8) :
    ao.Serialize w =
      (⟨w.output ++ (match ao.Address with
        | none => [0]
        | some a => 1 :: List.ofFn a)⟩, none) ∧
    (AddressOptionalSSZ.Deserialize (some recv)
      ⟨(ao.Serialize ⟨[]⟩).1.output ++ rest⟩).err = none ∧
    (AddressOptionalSSZ.Deserialize (some recv)
      ⟨(ao.Serialize ⟨[]⟩).1.output ++ rest⟩).receiver = some ao ∧
    (AddressOptionalSSZ.Deserialize (some recv)
      ⟨(ao.Serialize ⟨[]⟩).1.output ++ rest⟩).reader = ⟨rest⟩ := by
  refine ⟨Serialize_output ao w, ?_⟩
  rw [Serialize_output ao ⟨[]⟩]
  obtain ⟨addr⟩ := ao
  cases addr with
  | none =>
    simp [AddressOptionalSSZ.Deserialize, DecodingReader.ReadByte]
  | some a =>
    have hne : ¬ ((1 : UInt8) = 0) := by decide
    simp only [List.nil_append, List.cons_append, AddressOptionalSSZ.Deserialize,
      DecodingReader.ReadByte, hne, if_false, if_true, AddressSSZ.Deserialize,
      Read_ofFn_append, bytesToArray_ofFn]
    exact ⟨trivial, trivial, trivial⟩

/-- C9: `ReadHashes` leaves `*hashes` non-nil on return, for every reader,
every initial slice (nil or not, of any length and capacity) and every length,
whether it returns nil or a read error. -/
theorem ReadHashes_nonNil (dr : DecodingReader) (hashes : HashSlice) (length : Nat) :
    (ReadHashes dr hashes length).receiver.isNil = false := by
  unfold ReadHashes
  apply readHashesLoop_isNil
  cases hashes with
  | nil =>
    by_cases hl : HashSlice.nil.len ≠ length
    · have hc : ¬ (HashSlice.nil.cap ≥ length) := by
        simp only [HashSlice.len] at hl
        simp only [HashSlice.cap]
        omega
      rw [if_pos hl, if_neg hc]
      rfl
    · rw [if_neg hl]
      rfl
  | arr backing len =>
    by_cases hl : (HashSlice.arr backing len).len ≠ length
    · rw [if_pos hl]
      by_cases hc : (HashSlice.arr backing len).cap ≥ length
      · rw [if_pos hc]
        rfl
      · rw [if_neg hc]
        rfl
    · rw [if_neg hl]
      rfl

/-- C10: `AddressOptionalSSZ.Deserialize` returns an error on every non-empty
input whose first byte, the union selector, is neither 0 nor 1 (the invalid
selector error, or the nil-receiver error for a nil receiver), and leaves the
receiver, hence its Address field, unchanged. -/
theorem Deserialize_invalid_selector (ao : Option AddressOptionalSSZ) (v : UInt8)
    (rest : List UInt8) (h0 : v ≠ 0) (h1 : v ≠ 1) :
    (AddressOptionalSSZ.Deserialize ao ⟨v :: rest⟩).err =
      some (match ao with
        | none => Error.nilReceiver
        | some _ => Error.invalidSelector v) ∧
    (AddressOptionalSSZ.Deserialize ao ⟨v :: rest⟩).receiver = ao := by
  cases ao with
  | none => exact ⟨rfl, rfl⟩
  | some s =>
    simp only [AddressOptionalSSZ.Deserialize, DecodingReader.ReadByte, if_neg h0, if_neg h1]
    exact ⟨trivial, trivial⟩

/-- Witness of C10 at the receiver holding an absent address and the input
bytes 2, 7. -/
theorem Deserialize_invalid_selector_witness :
    (2 : UInt8) ≠ 0 ∧ (2 : UInt8) ≠ 1 ∧
    (AddressOptionalSSZ.Deserialize (some ⟨none⟩) ⟨[2, 7]⟩).err =
      some (Error.invalidSelector 2) ∧
    (AddressOptionalSSZ.Deserialize (some ⟨none⟩) ⟨[2, 7]⟩).receiver = some ⟨none⟩ :=
  ⟨by decide, by decide, Deserialize_invalid_selector (some ⟨none⟩) 2 [7] (by decide) (by decide)⟩

/-! ### fakeExponential -/

theorem floor_div_eq (a b : Int) (hb : 0 < b) : ⌊((a : Int) : ℚ) / ((b : Int) : ℚ)⌋ = a / b := by
  obtain ⟨n, rfl⟩ := Int.eq_ofNat_of_zero_le hb.le
  have h := Rat.floor_intCast_div_natCast a n
  simpa using h

theorem succ_mul_pos (i : Nat) (denom : Int) (hd : 0 < denom) :
    0 < ((i + 1 : Nat) : Int) * denom := by
  have hi : (0 : Int) < ((i + 1 : Nat) : Int) := by exact_mod_cast Nat.succ_pos i
  exact Int.mul_pos hi hd

theorem eipTerm_succ (factor num denom : Int) (hd : 0 < denom) (i : Nat) :
    eipTerm factor num denom (i + 1) =
      eipTerm factor num denom i * num / (((i + 1 : Nat) : Int) * denom) := by
  show ⌊((eipTerm factor num denom i * num : Int) : ℚ) /
    ((((i + 1 : Nat) : Int) * denom : Int) : ℚ)⌋ = _
  exact floor_div_eq _ _ (succ_mul_pos i denom hd)

theorem eipTerm_nonneg (factor num denom : Int) (hf : 0 ≤ factor) (hn : 0 ≤ num)
    (hd : 0 < denom) (i : Nat) : 0 ≤ eipTerm factor num denom i := by
  induction i with
  | zero => exact Int.mul_nonneg hf hd.le
  | succ i ih =>
    rw [eipTerm_succ factor num denom hd]
    exact Int.ediv_nonneg (Int.mul_nonneg ih hn) (succ_mul_pos i denom hd).le

theorem eipTerm_succ_of_zero (factor num denom : Int) (hd : 0 < denom) (i : Nat)
    (h : eipTerm factor num denom i = 0) : eipTerm factor num denom (i + 1) = 0 := by
  rw [eipTerm_succ factor num denom hd, h]
  simp

theorem eipTerm_succ_lt (factor num denom : Int) (hd : 0 < denom) (i : Nat)
    (hi : num < ((i + 1 : Nat) : Int) * denom) (h : 0 < eipTerm factor num denom i) :
    eipTerm factor num denom (i + 1) < eipTerm factor num denom i := by
  rw [eipTerm_succ factor num denom hd]
  apply Int.ediv_lt_of_lt_mul (succ_mul_pos i denom hd)
  exact Int.mul_lt_mul_of_pos_left hi h

theorem eipTerm_descent (factor num denom : Int) (hf : 0 ≤ factor) (hn : 0 ≤ num)
    (hd : 0 < denom) (j : Nat) :
    eipTerm factor num denom (num.toNat + j) = 0 ∨
      eipTerm factor num denom (num.toNat + j) + j ≤ eipTerm factor num denom num.toNat := by
  induction j with
  | zero =>
    right
    simp
  | succ j ih =>
    have hnn := eipTerm_nonneg factor num denom hf hn hd (num.toNat + j)
    rcases ih with h0 | hle
    · left
      exact eipTerm_succ_of_zero factor num denom hd _ h0
    · rcases lt_or_eq_of_le hnn with hpos | hz
      · right
        have hlt : num < ((num.toNat + j + 1 : Nat) : Int) * denom := by
          have h1 : ((num.toNat : Nat) : Int) = num := Int.toNat_of_nonneg hn
          have h2 : (1 : Int) ≤ denom := hd
          have h3 : (0 : Int) ≤ ((num.toNat + j + 1 : Nat) : Int) := Int.ofNat_nonneg _
          have h4 : ((num.toNat + j + 1 : Nat) : Int) * 1 ≤
              ((num.toNat + j + 1 : Nat) : Int) * denom := Int.mul_le_mul_of_nonneg_left h2 h3
          push_cast at h4 ⊢
          omega
        have hstep := eipTerm_succ_lt factor num denom hd (num.toNat + j) hlt hpos
        have hidx : num.toNat + (j + 1) = num.toNat + j + 1 := rfl
        rw [hidx]
        push_cast
        omega
      · left
        exact eipTerm_succ_of_zero factor num denom hd _ hz.symm

theorem eipTerm_exists_zero (factor num denom : Int) (hf : 0 ≤ factor) (hn : 0 ≤ num)
    (hd : 0 < denom) : ∃ k, eipTerm factor num denom k = 0 := by
  have hN := eipTerm_nonneg factor num denom hf hn hd num.toNat
  refine ⟨num.toNat + (eipTerm factor num denom num.toNat).toNat, ?_⟩
  rcases eipTerm_descent factor num denom hf hn hd (eipTerm factor num denom num.toNat).toNat
    with h0 | hle
  · exact h0
  · have hnn := eipTerm_nonneg factor num denom hf hn hd
      (num.toNat + (eipTerm factor num denom num.toNat).toNat)
    have hcast : (((eipTerm factor num denom num.toNat).toNat : Nat) : Int) =
        eipTerm factor num denom num.toNat := Int.toNat_of_nonneg hN
    omega

theorem eipSum_succ (factor num denom : Int) (k : Nat) :
    eipSum factor num denom (k + 1) = eipSum factor num denom k + eipTerm factor num denom k := by
  simp [eipSum, List.range_succ]

/-- Loop invariant of `fakeExponential`: entered at counter `m + 1` with the
accumulator `t_m` and the output `t_0 + ... + t_(m-1)`, the loop returns the
sum of the terms before the first zero term, which is `n` terms further. -/
theorem fakeExponentialLoop_eq (factor num denom : Int) (hd : 0 < denom) (n : Nat) :
    ∀ (m fuel : Nat), n < fuel →
      (∀ j, m ≤ j → j < m + n → 0 < eipTerm factor num denom j) →
      eipTerm factor num denom (m + n) = 0 →
      fakeExponentialLoop num denom fuel ((m + 1 : Nat) : Int) (eipSum factor num denom m)
        (eipTerm factor num denom m) = some (eipSum factor num denom (m + n)) := by
  induction n with
  | zero =>
    intro m fuel hfuel _ hz
    obtain ⟨fuel, rfl⟩ := Nat.exists_eq_succ_of_ne_zero (Nat.pos_iff_ne_zero.mp hfuel)
    have hz0 : eipTerm factor num denom m = 0 := hz
    have hnot : ¬ (0 < eipTerm factor num denom m) := by
      rw [hz0]
      exact lt_irrefl 0
    unfold fakeExponentialLoop
    rw [if_neg hnot]
    rfl
  | succ n ih =>
    intro m fuel hfuel hpos hz
    obtain ⟨fuel, rfl⟩ := Nat.exists_eq_succ_of_ne_zero (Nat.pos_iff_ne_zero.mp
      (Nat.lt_of_le_of_lt (Nat.zero_le _) hfuel))
    have hm : 0 < eipTerm factor num denom m := hpos m (Nat.le_refl m) (by omega)
    have hne : ¬ (((m + 1 : Nat) : Int) * denom = 0) := (succ_mul_pos m denom hd).ne'
    unfold fakeExponentialLoop
    rw [if_pos hm, if_neg hne, ← eipTerm_succ factor num denom hd m, ← eipSum_succ]
    have hcast : (((m + 1 : Nat) : Int) + 1) = (((m + 1) + 1 : Nat) : Int) := by push_cast; rfl
    rw [hcast]
    have hidx : m + (n + 1) = (m + 1) + n := by omega
    rw [hidx]
    apply ih (m + 1) fuel (by omega)
    · intro j hj1 hj2
      exact hpos j (by omega) (by omega)
    · rw [← hidx]
      exact hz

theorem fakeExponential_sample : fakeExponential 9 1 10 3 = some 25 := by
  decide

/-- C7: for `factor ≥ 0`, `num ≥ 0` and `denom > 0`, `fakeExponential` is
EIP-4844 `fake_exponential`: the terms `t_0 = factor * denom`,
`t_i = floor(t_(i-1) * num / (i * denom))` reach a first zero term `t_k`, and
with more than `k` units of fuel the loop finishes and the function returns
`floor((t_0 + ... + t_(k-1)) / denom)`. `GetDataGasPrice` of a non-nil `x` is
`fakeExponential(MinDataGasPrice, x, DataGasPriceUpdateFraction)` and
`GetDataGasPrice` of nil is nil. -/
theorem fakeExponential_eq_eip (factor num denom : Int) (hf : 0 ≤ factor) (hn : 0 ≤ num)
    (hd : 0 < denom) (MinDataGasPrice DataGasPriceUpdateFraction x : Int) (gasFuel : Nat) :
    (∃ k, eipTerm factor num denom k = 0 ∧
      (∀ j, j < k → 0 < eipTerm factor num denom j) ∧
      ∀ fuel, k < fuel → fakeExponential fuel factor num denom =
        some ⌊((eipSum factor num denom k : Int) : ℚ) / ((denom : Int) : ℚ)⌋) ∧
    GetDataGasPrice MinDataGasPrice DataGasPriceUpdateFraction gasFuel (some x) =
      (fakeExponential gasFuel MinDataGasPrice x DataGasPriceUpdateFraction).map some ∧
    GetDataGasPrice MinDataGasPrice DataGasPriceUpdateFraction gasFuel none = some none := by
  refine ⟨?_, rfl, rfl⟩
  have hex := eipTerm_exists_zero factor num denom hf hn hd
  refine ⟨Nat.find hex, Nat.find_spec hex, ?_, ?_⟩
  · intro j hj
    have hne : eipTerm factor num denom j ≠ 0 := Nat.find_min hex hj
    exact lt_of_le_of_ne (eipTerm_nonneg factor num denom hf hn hd j) (Ne.symm hne)
  · intro fuel hfuel
    have hloop := fakeExponentialLoop_eq factor num denom hd (Nat.find hex) 0 fuel hfuel
      (fun j _ hj => by
        have hne : eipTerm factor num denom j ≠ 0 := Nat.find_min hex (by omega)
        exact lt_of_le_of_ne (eipTerm_nonneg factor num denom hf hn hd j) (Ne.symm hne))
      (by rw [Nat.zero_add]; exact Nat.find_spec hex)
    have hsum0 : eipSum factor num denom 0 = 0 := by simp [eipSum]
    simp only [Nat.zero_add, Nat.cast_one, hsum0] at hloop
    have hinit : fakeExponentialLoop num denom fuel 1 0 (factor * denom) =
        some (eipSum factor num denom (Nat.find hex)) := hloop
    unfold fakeExponential
    rw [hinit, floor_div_eq _ _ hd]
    simp only [if_neg hd.ne']

/-- Witness of C7 at factor 1, num 10, denom 3. -/
theorem fakeExponential_eq_eip_witness :
    (0 : Int) ≤ 1 ∧ (0 : Int) ≤ 10 ∧ (0 : Int) < 3 ∧
    ((∃ k, eipTerm 1 10 3 k = 0 ∧ (∀ j, j < k → 0 < eipTerm 1 10 3 j) ∧
      ∀ fuel, k < fuel → fakeExponential fuel 1 10 3 =
        some ⌊((eipSum 1 10 3 k : Int) : ℚ) / ((3 : Int) : ℚ)⌋) ∧
    GetDataGasPrice 1 2225652 100 (some 7) = (fakeExponential 100 1 7 2225652).map some ∧
    GetDataGasPrice 1 2225652 100 none = some none) :=
  ⟨by decide, by decide, by decide,
    fakeExponential_eq_eip 1 10 3 (by decide) (by decide) (by decide) 1 2225652 7 100⟩

/-! ### fakeExponential and the exponential -/

/-- The result of `fakeExponential` once the fuel exceeds the index of the first
zero term. -/
theorem fakeExponential_eq_sum (factor num denom : Int) (hd : 0 < denom) (k fuel : Nat)
    (hfuel : k < fuel) (hpos : ∀ j, j < k → 0 < eipTerm factor num denom j)
    (hz : eipTerm factor num denom k = 0) :
    fakeExponential fuel factor num denom = some (eipSum factor num denom k / denom) := by
  have hloop := fakeExponentialLoop_eq factor num denom hd k 0 fuel hfuel
    (fun j _ hj => hpos j (by omega)) (by rw [Nat.zero_add]; exact hz)
  have hsum0 : eipSum factor num denom 0 = 0 := by simp [eipSum]
  simp only [Nat.zero_add, Nat.cast_one, hsum0] at hloop
  have hinit : fakeExponentialLoop num denom fuel 1 0 (factor * denom) =
      some (eipSum factor num denom k) := hloop
  unfold fakeExponential
  rw [hinit]
  simp only [if_neg hd.ne']

theorem ediv_cast_le (a b : Int) (hb : 0 < b) : ((a / b : Int) : ℝ) ≤ (a : ℝ) / (b : ℝ) := by
  have hbR : (0 : ℝ) < (b : ℝ) := by exact_mod_cast hb
  rw [le_div_iff₀ hbR]
  have h := Int.ediv_mul_le a hb.ne'
  exact_mod_cast h

/-- Each term of the loop is at most the matching term of the Taylor series of
`factor * denom * exp (num / denom)`. -/
theorem eipTerm_le_taylor (factor num denom : Int) (hn : 0 ≤ num) (hd : 0 < denom)
    (i : Nat) :
    (eipTerm factor num denom i : ℝ) ≤
      (factor : ℝ) * (denom : ℝ) * (((num : ℝ) / (denom : ℝ)) ^ i / (i.factorial : ℝ)) := by
  have hdR : (0 : ℝ) < (denom : ℝ) := by exact_mod_cast hd
  have hnR : (0 : ℝ) ≤ (num : ℝ) := by exact_mod_cast hn
  induction i with
  | zero => simp [eipTerm]
  | succ i ih =>
    rw [eipTerm_succ factor num denom hd]
    have hiR : (0 : ℝ) < ((i + 1 : Nat) : ℝ) := by exact_mod_cast Nat.succ_pos i
    have hden : (0 : ℝ) < ((i + 1 : Nat) : ℝ) * (denom : ℝ) := mul_pos hiR hdR
    have h1 := ediv_cast_le (eipTerm factor num denom i * num) (((i + 1 : Nat) : Int) * denom)
      (succ_mul_pos i denom hd)
    have h2 : (((eipTerm factor num denom i * num : Int) : ℝ)) /
        ((((i + 1 : Nat) : Int) * denom : Int) : ℝ) =
        (eipTerm factor num denom i : ℝ) * ((num : ℝ) / (((i + 1 : Nat) : ℝ) * (denom : ℝ))) := by
      push_cast
      ring
    have hq : (0 : ℝ) ≤ (num : ℝ) / (((i + 1 : Nat) : ℝ) * (denom : ℝ)) :=
      div_nonneg hnR hden.le
    have h3 := mul_le_mul_of_nonneg_right ih hq
    have h4 : (factor : ℝ) * (denom : ℝ) * (((num : ℝ) / (denom : ℝ)) ^ i / (i.factorial : ℝ)) *
        ((num : ℝ) / (((i + 1 : Nat) : ℝ) * (denom : ℝ))) =
        (factor : ℝ) * (denom : ℝ) *
          (((num : ℝ) / (denom : ℝ)) ^ (i + 1) / ((i + 1).factorial : ℝ)) := by
      have hfac : (0 : ℝ) < (i.factorial : ℝ) := by exact_mod_cast Nat.factorial_pos i
      rw [Nat.factorial_succ]
      push_cast
      field_simp
      ring
    calc ((eipTerm factor num denom i * num / (((i + 1 : Nat) : Int) * denom) : Int) : ℝ)
        ≤ (eipTerm factor num denom i : ℝ) *
            ((num : ℝ) / (((i + 1 : Nat) : ℝ) * (denom : ℝ))) := by
          rw [← h2]
          exact h1
      _ ≤ _ := h3
      _ = _ := h4

theorem eipSum_le_taylor (factor num denom : Int) (hn : 0 ≤ num) (hd : 0 < denom)
    (k : Nat) :
    (eipSum factor num denom k : ℝ) ≤
      (factor : ℝ) * (denom : ℝ) *
        ∑ i in Finset.range k, ((num : ℝ) / (denom : ℝ)) ^ i / (i.factorial : ℝ) := by
  induction k with
  | zero => simp [eipSum]
  | succ k ih =>
    rw [eipSum_succ, Finset.sum_range_succ, mul_add]
    push_cast
    exact add_le_add ih (eipTerm_le_taylor factor num denom hn hd k)

theorem eipSum_le_exp (factor num denom : Int) (hf : 0 ≤ factor) (hn : 0 ≤ num)
    (hd : 0 < denom) (k : Nat) :
    (eipSum factor num denom k : ℝ) ≤
      (factor : ℝ) * (denom : ℝ) * Real.exp ((num : ℝ) / (denom : ℝ)) := by
  have hdR : (0 : ℝ) < (denom : ℝ) := by exact_mod_cast hd
  have hnR : (0 : ℝ) ≤ (num : ℝ) := by exact_mod_cast hn
  have hfR : (0 : ℝ) ≤ (factor : ℝ) := by exact_mod_cast hf
  have hx : (0 : ℝ) ≤ (num : ℝ) / (denom : ℝ) := div_nonneg hnR hdR.le
  exact le_trans (eipSum_le_taylor factor num denom hn hd k)
    (mul_le_mul_of_nonneg_left (Real.sum_le_exp_of_nonneg hx k) (mul_nonneg hfR hdR.le))

/-- C12: `fakeExponential` approximates `factor * e ^ (num / denom)` from below.
For `factor ≥ 0`, `num ≥ 0` and `denom > 0` the loop finishes (for every fuel
above some bound the function returns a result), and the result is at most
`factor * exp (num / denom)` over the reals. -/
theorem fakeExponential_le_exp (factor num denom : Int) (hf : 0 ≤ factor) (hn : 0 ≤ num)
    (hd : 0 < denom) :
    ∃ k, ∀ fuel, k < fuel → ∃ r, fakeExponential fuel factor num denom = some r ∧
      (r : ℝ) ≤ (factor : ℝ) * Real.exp ((num : ℝ) / (denom : ℝ)) := by
  have hex := eipTerm_exists_zero factor num denom hf hn hd
  refine ⟨Nat.find hex, fun fuel hfuel => ⟨eipSum factor num denom (Nat.find hex) / denom, ?_, ?_⟩⟩
  · apply fakeExponential_eq_sum factor num denom hd (Nat.find hex) fuel hfuel
    · intro j hj
      have hne : eipTerm factor num denom j ≠ 0 := Nat.find_min hex hj
      exact lt_of_le_of_ne (eipTerm_nonneg factor num denom hf hn hd j) (Ne.symm hne)
    · exact Nat.find_spec hex
  · have hdR : (0 : ℝ) < (denom : ℝ) := by exact_mod_cast hd
    have h1 := ediv_cast_le (eipSum factor num denom (Nat.find hex)) denom hd
    have h2 := eipSum_le_exp factor num denom hf hn hd (Nat.find hex)
    have h3 : (eipSum factor num denom (Nat.find hex) : ℝ) / (denom : ℝ) ≤
        (factor : ℝ) * Real.exp ((num : ℝ) / (denom : ℝ)) := by
      rw [div_le_iff₀ hdR]
      calc (eipSum factor num denom (Nat.find hex) : ℝ)
          ≤ (factor : ℝ) * (denom : ℝ) * Real.exp ((num : ℝ) / (denom : ℝ)) := h2
        _ = (factor : ℝ) * Real.exp ((num : ℝ) / (denom : ℝ)) * (denom : ℝ) := by ring
    exact le_trans h1 h3

/-- Witness of C12 at factor 1, num 10, denom 3. -/
theorem fakeExponential_le_exp_witness :
    (0 : Int) ≤ 1 ∧ (0 : Int) ≤ 10 ∧ (0 : Int) < 3 ∧
    ∃ k, ∀ fuel, k < fuel → ∃ r, fakeExponential fuel 1 10 3 = some r ∧
      (r : ℝ) ≤ ((1 : Int) : ℝ) * Real.exp (((10 : Int) : ℝ) / ((3 : Int) : ℝ)) :=
  ⟨by decide, by decide, by decide,
    fakeExponential_le_exp 1 10 3 (by decide) (by decide) (by decide)⟩

/-! ### BlobTxMessage.copy -/

theorem set_length_append {α : Type} (l : List α) (a b : α) :
    (l ++ [a]).set l.length b = l ++ [b] := by
  induction l with
  | nil => rfl
  | cons x l ih => simp [ih]

theorem getD_length_append {α : Type} (l : List α) (a d : α) :
    (l ++ [a]).getD l.length d = a := by
  rw [List.getD_append_right l [a] d l.length (Nat.le_refl _), Nat.sub_self]
  rfl

theorem validPtr_some (n q : Nat) (h : validPtr n (some q) = true) : q < n := by
  simpa [validPtr] using h

/-- The array left by `make` followed by the builtin `copy` from a source of
the same length is the content of the source. -/
theorem make_copy_array {α : Type} (src : List α) (n : Nat) (z : α) :
    (src.take n).take (min n n) ++ (List.replicate n z).drop (min n n) = src.take n := by
  rw [Nat.min_self, List.take_take, Nat.min_self, List.drop_replicate, Nat.sub_self]
  simp

theorem readTuples_append (h : Heap) (s : SliceRef) (l : List (List AccessTuple))
    (hv : validPtr h.tuples.length s.ptr = true) :
    Heap.readTuples { h with tuples := h.tuples ++ l } s = h.readTuples s := by
  unfold Heap.readTuples
  cases hp : s.ptr with
  | none => rfl
  | some q =>
    rw [hp] at hv
    simp only [List.getD_append _ _ _ _ (validPtr_some _ _ hv)]

theorem readHashes_append (h : Heap) (s : SliceRef) (l : List (List Hash))
    (hv : validPtr h.hashes.length s.ptr = true) :
    Heap.readHashes { h with hashes := h.hashes ++ l } s = h.readHashes s := by
  unfold Heap.readHashes
  cases hp : s.ptr with
  | none => rfl
  | some q =>
    rw [hp] at hv
    simp only [List.getD_append _ _ _ _ (validPtr_some _ _ hv)]

theorem readTuples_take (h : Heap) (s : SliceRef) :
    (h.readTuples s).take s.len = h.readTuples s := by
  unfold Heap.readTuples
  cases s.ptr with
  | none => simp
  | some q => simp [List.take_take]

theorem readHashes_take (h : Heap) (s : SliceRef) :
    (h.readHashes s).take s.len = h.readHashes s := by
  unfold Heap.readHashes
  cases s.ptr with
  | none => simp
  | some q => simp [List.take_take]

theorem readTuples_congr (g h : Heap) (s : SliceRef) (e : g.tuples = h.tuples) :
    g.readTuples s = h.readTuples s := by
  unfold Heap.readTuples
  rw [e]

theorem readHashes_congr (g h : Heap) (s : SliceRef) (e : g.hashes = h.hashes) :
    g.readHashes s = h.readHashes s := by
  unfold Heap.readHashes
  rw [e]

/-- The builtin `copy` into a freshly made tuple array of the length of the
source leaves that array holding the elements of the source. -/
theorem copyTuples_fresh (g : Heap) (l : List (List AccessTuple)) (src : SliceRef)
    (z : AccessTuple) (hg : g.tuples = l ++ [List.replicate src.len z]) :
    (copyTuples g ⟨some l.length, src.len⟩ src).tuples = l ++ [g.readTuples src] ∧
    (copyTuples g ⟨some l.length, src.len⟩ src).hashes = g.hashes ∧
    (copyTuples g ⟨some l.length, src.len⟩ src).addrs = g.addrs ∧
    (copyTuples g ⟨some l.length, src.len⟩ src).bytes = g.bytes := by
  refine ⟨?_, rfl, rfl, rfl⟩
  show g.tuples.set l.length ((g.readTuples src).take (min src.len src.len) ++
    (g.tuples.getD l.length []).drop (min src.len src.len)) = _
  rw [hg, set_length_append, getD_length_append, Nat.min_self, readTuples_take,
    List.drop_replicate, Nat.sub_self]
  simp

/-- The builtin `copy` into a freshly made hash array of the length of the
source leaves that array holding the elements of the source. -/
theorem copyHashes_fresh (g : Heap) (l : List (List Hash)) (src : SliceRef)
    (z : Hash) (hg : g.hashes = l ++ [List.replicate src.len z]) :
    (copyHashes g ⟨some l.length, src.len⟩ src).hashes = l ++ [g.readHashes src] ∧
    (copyHashes g ⟨some l.length, src.len⟩ src).tuples = g.tuples ∧
    (copyHashes g ⟨some l.length, src.len⟩ src).addrs = g.addrs ∧
    (copyHashes g ⟨some l.length, src.len⟩ src).bytes = g.bytes := by
  refine ⟨?_, rfl, rfl, rfl⟩
  show g.hashes.set l.length ((g.readHashes src).take (min src.len src.len) ++
    (g.hashes.getD l.length []).drop (min src.len src.len)) = _
  rw [hg, set_length_append, getD_length_append, Nat.min_self, readHashes_take,
    List.drop_replicate, Nat.sub_self]
  simp

theorem copyAddressPtr_frame (h : Heap) (a : Option Nat) :
    (copyAddressPtr h a).1.bytes = h.bytes ∧ (copyAddressPtr h a).1.tuples = h.tuples ∧
    (copyAddressPtr h a).1.hashes = h.hashes := by
  cases a <;> exact ⟨rfl, rfl, rfl⟩

theorem CopyBytes_frame (h : Heap) (b : SliceRef) :
    (CopyBytes h b).1.addrs = h.addrs ∧ (CopyBytes h b).1.tuples = h.tuples ∧
    (CopyBytes h b).1.hashes = h.hashes := by
  unfold CopyBytes
  cases b.ptr <;> exact ⟨rfl, rfl, rfl⟩

/-- The memory after `copy`: the cells and arrays that existed are untouched,
and one address cell (for a non-nil `To`), one byte array (for non-nil `Data`),
one tuple array and one hash array are appended. No array of storage keys is
allocated. -/
theorem copy_heap (h : Heap) (tx : BlobTxMessage)
    (hal : validPtr h.tuples.length tx.AccessList.ptr = true)
    (hbv : validPtr h.hashes.length tx.BlobVersionedHashes.ptr = true) :
    (tx.copy h).1.addrs = h.addrs ++ (match tx.To with
      | none => []
      | some p => [h.addrs.getD p (fun _ => 0)]) ∧
    (tx.copy h).1.bytes = h.bytes ++ (match tx.Data.ptr with
      | none => []
      | some _ => [h.readBytes tx.Data]) ∧
    (tx.copy h).1.tuples = h.tuples ++ [h.readTuples tx.AccessList] ∧
    (tx.copy h).1.hashes = h.hashes ++ [h.readHashes tx.BlobVersionedHashes] := by
  obtain ⟨a1, a2, a3⟩ := copyAddressPtr_frame h tx.To
  obtain ⟨b1, b2, b3⟩ := CopyBytes_frame (copyAddressPtr h tx.To).1 tx.Data
  have ht2 : (CopyBytes (copyAddressPtr h tx.To).1 tx.Data).1.tuples = h.tuples := b2.trans a2
  have hh2 : (CopyBytes (copyAddressPtr h tx.To).1 tx.Data).1.hashes = h.hashes := b3.trans a3
  -- the memory after the two `make` calls
  let g := (makeHashes (makeTuples (CopyBytes (copyAddressPtr h tx.To).1 tx.Data).1
    tx.AccessList.len).1 tx.BlobVersionedHashes.len).1
  have hgt : g.tuples = h.tuples ++ [List.replicate tx.AccessList.len ⟨fun _ => 0, ⟨none, 0⟩⟩] := by
    show (CopyBytes (copyAddressPtr h tx.To).1 tx.Data).1.tuples ++ _ = _
    rw [ht2]
  have hgh : g.hashes = h.hashes ++ [List.replicate tx.BlobVersionedHashes.len (fun _ => 0)] := by
    show (CopyBytes (copyAddressPtr h tx.To).1 tx.Data).1.hashes ++ _ = _
    rw [hh2]
  have e1 : (⟨some (CopyBytes (copyAddressPtr h tx.To).1 tx.Data).1.tuples.length,
      tx.AccessList.len⟩ : SliceRef) = ⟨some h.tuples.length, tx.AccessList.len⟩ := by
    rw [ht2]
  have e2 : (⟨some (CopyBytes (copyAddressPtr h tx.To).1 tx.Data).1.hashes.length,
      tx.BlobVersionedHashes.len⟩ : SliceRef) =
      ⟨some h.hashes.length, tx.BlobVersionedHashes.len⟩ := by
    rw [hh2]
  have hcopy : (tx.copy h).1 =
      copyHashes (copyTuples g ⟨some h.tuples.length, tx.AccessList.len⟩ tx.AccessList)
        ⟨some h.hashes.length, tx.BlobVersionedHashes.len⟩ tx.BlobVersionedHashes := by
    rw [← e1, ← e2]
    rfl
  obtain ⟨c1, c2, c3, c4⟩ := copyTuples_fresh g h.tuples tx.AccessList _ hgt
  have hgh2 : (copyTuples g ⟨some h.tuples.length, tx.AccessList.len⟩ tx.AccessList).hashes =
      h.hashes ++ [List.replicate tx.BlobVersionedHashes.len (fun _ => 0)] := c2.trans hgh
  obtain ⟨d1, d2, d3, d4⟩ := copyHashes_fresh
    (copyTuples g ⟨some h.tuples.length, tx.AccessList.len⟩ tx.AccessList) h.hashes
    tx.BlobVersionedHashes _ hgh2
  rw [hcopy]
  refine ⟨?_, ?_, ?_, ?_⟩
  · rw [d3, c3]
    show (CopyBytes (copyAddressPtr h tx.To).1 tx.Data).1.addrs = _
    rw [b1]
    cases tx.To <;> simp [copyAddressPtr]
  · rw [d4, c4]
    show (CopyBytes (copyAddressPtr h tx.To).1 tx.Data).1.bytes = _
    unfold CopyBytes
    cases hd : tx.Data.ptr with
    | none => simp [a1]
    | some q =>
      simp only [a1]
      congr 2
      simp [Heap.readBytes, a1]
  · rw [d2, c1]
    congr 2
    have e : g.readTuples tx.AccessList =
        Heap.readTuples { h with tuples := h.tuples ++ [List.replicate tx.AccessList.len
          ⟨fun _ => 0, ⟨none, 0⟩⟩] } tx.AccessList := readTuples_congr _ _ _ hgt
    rw [e, readTuples_append h tx.AccessList _ hal]
  · rw [d1]
    congr 2
    have e : (copyTuples g ⟨some h.tuples.length, tx.AccessList.len⟩ tx.AccessList).readHashes
        tx.BlobVersionedHashes =
        Heap.readHashes { h with hashes := h.hashes ++ [List.replicate tx.BlobVersionedHashes.len
          (fun _ => 0)] } tx.BlobVersionedHashes := readHashes_congr _ _ _ hgh2
    rw [e, readHashes_append h tx.BlobVersionedHashes _ hbv]

/-- The message returned by `copy`: the value fields are those of the
original, `To` and `Data` are nil when the original ones are and fresh
otherwise, the access list and the versioned hashes are fresh slices of the
original lengths. -/
theorem copy_message (h : Heap) (tx : BlobTxMessage) :
    ((tx.copy h).2.ChainID = tx.ChainID ∧ (tx.copy h).2.Nonce = tx.Nonce ∧
      (tx.copy h).2.GasTipCap = tx.GasTipCap ∧ (tx.copy h).2.GasFeeCap = tx.GasFeeCap ∧
      (tx.copy h).2.Gas = tx.Gas ∧ (tx.copy h).2.Value = tx.Value ∧
      (tx.copy h).2.MaxFeePerDataGas = tx.MaxFeePerDataGas) ∧
    (tx.copy h).2.To = tx.To.map (fun _ => h.addrs.length) ∧
    (tx.copy h).2.Data = (match tx.Data.ptr with
      | none => ⟨none, 0⟩
      | some _ => ⟨some h.bytes.length, tx.Data.len⟩) ∧
    (tx.copy h).2.AccessList = ⟨some h.tuples.length, tx.AccessList.len⟩ ∧
    (tx.copy h).2.BlobVersionedHashes = ⟨some h.hashes.length, tx.BlobVersionedHashes.len⟩ := by
  obtain ⟨a1, a2, a3⟩ := copyAddressPtr_frame h tx.To
  obtain ⟨b1, b2, b3⟩ := CopyBytes_frame (copyAddressPtr h tx.To).1 tx.Data
  refine ⟨⟨rfl, rfl, rfl, rfl, rfl, rfl, rfl⟩, ?_, ?_, ?_, ?_⟩
  · show (copyAddressPtr h tx.To).2 = _
    cases tx.To <;> rfl
  · show (CopyBytes (copyAddressPtr h tx.To).1 tx.Data).2 = _
    unfold CopyBytes
    cases tx.Data.ptr with
    | none => rfl
    | some q =>
      show (⟨some (copyAddressPtr h tx.To).1.bytes.length, tx.Data.len⟩ : SliceRef) = _
      rw [a1]
  · show (⟨some (CopyBytes (copyAddressPtr h tx.To).1 tx.Data).1.tuples.length,
      tx.AccessList.len⟩ : SliceRef) = _
    rw [b2, a2]
  · show (⟨some (CopyBytes (copyAddressPtr h tx.To).1 tx.Data).1.hashes.length,
      tx.BlobVersionedHashes.len⟩ : SliceRef) = _
    rw [b3, a3]

theorem readAddr_stable (g h : Heap) (p : Option Nat) (l : List AddressSSZ)
    (e : g.addrs = h.addrs ++ l) (hv : validPtr h.addrs.length p = true) :
    g.readAddr p = h.readAddr p := by
  cases p with
  | none => rfl
  | some q =>
    show some (g.addrs.getD q _) = some (h.addrs.getD q _)
    rw [e, List.getD_append _ _ _ _ (validPtr_some _ _ hv)]

theorem readBytes_stable (g h : Heap) (s : SliceRef) (l : List (List UInt8))
    (e : g.bytes = h.bytes ++ l) (hv : validPtr h.bytes.length s.ptr = true) :
    g.readBytes s = h.readBytes s := by
  unfold Heap.readBytes
  cases hp : s.ptr with
  | none => rfl
  | some q =>
    rw [hp] at hv
    simp only [e, List.getD_append _ _ _ _ (validPtr_some _ _ hv)]

theorem readTuples_stable (g h : Heap) (s : SliceRef) (l : List (List AccessTuple))
    (e : g.tuples = h.tuples ++ l) (hv : validPtr h.tuples.length s.ptr = true) :
    g.readTuples s = h.readTuples s := by
  rw [readTuples_congr g { h with tuples := h.tuples ++ l } s e, readTuples_append h s l hv]

theorem readHashes_stable (g h : Heap) (s : SliceRef) (l : List (List Hash))
    (e : g.hashes = h.hashes ++ l) (hv : validPtr h.hashes.length s.ptr = true) :
    g.readHashes s = h.readHashes s := by
  rw [readHashes_congr g { h with hashes := h.hashes ++ l } s e, readHashes_append h s l hv]

theorem wellFormed_parts (h : Heap) (tx : BlobTxMessage) (hw : tx.wellFormed h = true) :
    validPtr h.addrs.length tx.To = true ∧ validPtr h.bytes.length tx.Data.ptr = true ∧
    validPtr h.tuples.length tx.AccessList.ptr = true ∧
    validPtr h.hashes.length tx.BlobVersionedHashes.ptr = true ∧
    ∀ t ∈ h.readTuples tx.AccessList, validPtr h.hashes.length t.StorageKeys.ptr = true := by
  unfold BlobTxMessage.wellFormed at hw
  simp only [Bool.and_eq_true, List.all_eq_true] at hw
  obtain ⟨⟨⟨⟨h1, h2⟩, h3⟩, h4⟩, h5⟩ := hw
  exact ⟨h1, h2, h3, h4, h5⟩

/-- The access tuples of the copy are the tuples of the original, slice header
of the storage keys included: the two messages share every array of storage
keys. -/
theorem copy_readTuples (h : Heap) (tx : BlobTxMessage) (hw : tx.wellFormed h = true) :
    (tx.copy h).1.readTuples (tx.copy h).2.AccessList = h.readTuples tx.AccessList ∧
    (tx.copy h).1.readTuples tx.AccessList = h.readTuples tx.AccessList := by
  obtain ⟨_, _, w3, w4, _⟩ := wellFormed_parts h tx hw
  obtain ⟨_, _, k3, _⟩ := copy_heap h tx w3 w4
  obtain ⟨_, _, _, m4, _⟩ := copy_message h tx
  refine ⟨?_, readTuples_stable _ h _ _ k3 w3⟩
  rw [m4]
  show ((tx.copy h).1.tuples.getD h.tuples.length []).take tx.AccessList.len = _
  rw [k3, getD_length_append, readTuples_take]

/-- Apart from the sharing of storage keys, `copy` copies: in the memory after
the call the copy has the content that the original had, and the original still
has it. -/
theorem copy_value (h : Heap) (tx : BlobTxMessage) (hw : tx.wellFormed h = true) :
    (tx.copy h).2.value (tx.copy h).1 = tx.value h ∧
    tx.value (tx.copy h).1 = tx.value h := by
  obtain ⟨w1, w2, w3, w4, w5⟩ := wellFormed_parts h tx hw
  obtain ⟨k1, k2, k3, k4⟩ := copy_heap h tx w3 w4
  obtain ⟨_, m2, m3, m4, m5⟩ := copy_message h tx
  obtain ⟨t1, t2⟩ := copy_readTuples h tx hw
  have hkeys : ∀ l : List AccessTuple, (∀ t ∈ l, validPtr h.hashes.length t.StorageKeys.ptr = true) →
      l.map (fun t => (⟨t.Address, (tx.copy h).1.readHashes t.StorageKeys⟩ : AccessTupleValue)) =
      l.map (fun t => (⟨t.Address, h.readHashes t.StorageKeys⟩ : AccessTupleValue)) := by
    intro l hl
    apply List.map_congr_left
    intro t ht
    rw [readHashes_stable _ h t.StorageKeys _ k4 (hl t ht)]
  have hTo : (tx.copy h).1.readAddr (tx.copy h).2.To = h.readAddr tx.To := by
    rw [m2]
    cases hto : tx.To with
    | none => rfl
    | some q =>
      show some ((tx.copy h).1.addrs.getD h.addrs.length _) = some (h.addrs.getD q _)
      rw [k1, hto]
      exact congrArg some (getD_length_append _ _ _)
  have hData : (tx.copy h).1.readBytes (tx.copy h).2.Data = h.readBytes tx.Data := by
    rw [m3]
    cases hd : tx.Data.ptr with
    | none =>
      have e : h.readBytes tx.Data = [] := by
        unfold Heap.readBytes
        rw [hd]
      rw [e]
      rfl
    | some q =>
      show ((tx.copy h).1.bytes.getD h.bytes.length []).take tx.Data.len = _
      rw [k2, hd]
      show ((h.bytes ++ [h.readBytes tx.Data]).getD h.bytes.length []).take tx.Data.len = _
      rw [getD_length_append]
      unfold Heap.readBytes
      rw [hd]
      simp [List.take_take]
  have hBv : (tx.copy h).1.readHashes (tx.copy h).2.BlobVersionedHashes =
      h.readHashes tx.BlobVersionedHashes := by
    rw [m5]
    show ((tx.copy h).1.hashes.getD h.hashes.length []).take tx.BlobVersionedHashes.len = _
    rw [k4, getD_length_append, readHashes_take]
  constructor
  · unfold BlobTxMessage.value
    rw [hTo, hData, hBv, t1, hkeys _ w5]
    rfl
  · unfold BlobTxMessage.value
    rw [readAddr_stable _ h _ _ k1 w1, readBytes_stable _ h _ _ k2 w2,
      readHashes_stable _ h _ _ k4 w4, t2, hkeys _ w5]

/-- C11, at a failing input: `copy` is not a deep copy of the storage keys.
For the sample message (one access tuple with one storage key, the zero hash)
the copy has a fresh tuple array, but its tuple carries the slice of storage
keys of the original; the original has the key 0 after the call, and the Go
assignment `cpy.AccessList[0].StorageKeys[0] = v` on the copy, with `v` the
hash of bytes 1, changes the key of the original to `v`. -/
theorem copy_shares_StorageKeys :
    (sampleTx.copy sampleHeap).2.AccessList.ptr ≠ sampleTx.AccessList.ptr ∧
    ((sampleTx.copy sampleHeap).1.readTuples (sampleTx.copy sampleHeap).2.AccessList).map
      (fun t => t.StorageKeys) = [⟨some 0, 1⟩] ∧
    (sampleHeap.readTuples sampleTx.AccessList).map (fun t => t.StorageKeys) = [⟨some 0, 1⟩] ∧
    (sampleTx.value (sampleTx.copy sampleHeap).1).AccessList.map
      (fun t => t.StorageKeys.map (fun k => k 0)) = [[0]] ∧
    (sampleTx.value ((sampleTx.copy sampleHeap).2.setStorageKey (sampleTx.copy sampleHeap).1
      0 0 (fun _ => 1))).AccessList.map (fun t => t.StorageKeys.map (fun k => k 0)) = [[1]] ∧
    sampleTx.value ((sampleTx.copy sampleHeap).2.setStorageKey (sampleTx.copy sampleHeap).1
      0 0 (fun _ => 1)) ≠ sampleTx.value (sampleTx.copy sampleHeap).1 := by
  have h4 : (sampleTx.value (sampleTx.copy sampleHeap).1).AccessList.map
      (fun t => t.StorageKeys.map (fun k => k 0)) = [[0]] := by decide
  have h5 : (sampleTx.value ((sampleTx.copy sampleHeap).2.setStorageKey
      (sampleTx.copy sampleHeap).1 0 0 (fun _ => 1))).AccessList.map
      (fun t => t.StorageKeys.map (fun k => k 0)) = [[1]] := by decide
  refine ⟨by decide, by decide, by decide, h4, h5, ?_⟩
  intro e
  have e2 := congrArg (fun v : BlobTxValue =>
    v.AccessList.map (fun t => t.StorageKeys.map (fun k => k 0))) e
  simp only [h4, h5] at e2
  exact absurd e2 (by decide)

end Types
